import Mathlib

/-!
Verification development for the ChatRaw backend (`backend/main.py`).

The Python source is shallowly embedded as follows:

* Python `str` is modelled as `List Char` (abbreviation `Txt`);
* Python `float` is modelled as `ℚ`; `math.sqrt`, an external library
  function with no rational counterpart, is passed as an explicit
  function parameter and constrained by hypotheses exactly where a
  theorem needs one of its algebraic properties;
* a Python code path that raises an exception is modelled with
  `Option` (`none` is the raised exception);
* external HTTP calls (the chat provider stream, the embeddings
  provider, the rerank provider) are modelled as explicit parameters
  describing the response the provider delivers; the JSON decoding of
  provider payloads, performed by the external `json` library, is
  modelled by presenting each decoded payload as a structured value.
-/

/-- Python `str`, modelled as a list of characters. -/
abbrev Txt := List Char

/-- Python `a or b` on strings: the first operand when it is truthy
(non-empty), otherwise the second. -/
def pyOrTxt (a b : Txt) : Txt := if a ≠ [] then a else b

/- ============ StreamRelay: `LLMService.chat_stream` ============ -/

/-- The decoded `chunk_data["choices"][0].get("delta", {})` object of one
provider stream frame.  Each field holds the corresponding JSON field,
with `[]` standing for an absent or empty string (both falsy in the
source). -/
structure Delta where
  reasoning_content : Txt := []
  reasoning : Txt := []
  thinking : Txt := []
  content : Txt := []
deriving DecidableEq

/-- One complete line of the provider byte stream, as the relay's inner
loop classifies it after splitting the buffer on newlines and stripping:
a line without the `data: ` prefix, the `[DONE]` sentinel payload, a
payload `json.loads` fails to decode, a decoded payload whose `choices`
list is missing or empty, or a frame carrying a delta. -/
inductive RawLine
  | noData
  | doneLine
  | badJson
  | noChoices
  | frame (d : Delta)
deriving DecidableEq

/-- The cause carried by an `error` event: non-2xx response body,
`asyncio.TimeoutError`, or any other exception. -/
inductive ErrCause
  | api (status : ℕ) (body : Txt)
  | timeout
  | exc (msg : Txt)
deriving DecidableEq

/-- One newline-delimited JSON event the relay yields to its caller. -/
inductive Event
  | thinking (t : Txt)
  | content (t : Txt)
  | references (refs : List (Txt × ℚ))
  | error (c : ErrCause)
  | done
deriving DecidableEq

/-- The reasoning fragment extracted from a delta: the source probes
`reasoning_content`, `reasoning`, `thinking` in order with Python `or`,
and only when thinking mode was requested (`if use_thinking:`). -/
def effReasoning (useT : Bool) (d : Delta) : Txt :=
  if useT then pyOrTxt d.reasoning_content (pyOrTxt d.reasoning d.thinking) else []

/-- The events yielded for one decoded frame: a `thinking` event when a
non-empty reasoning fragment was extracted, then a `content` event when
the delta carries non-empty content. -/
def deltaEvents (useT : Bool) (d : Delta) : List Event :=
  (if effReasoning useT d ≠ [] then [Event.thinking (effReasoning useT d)] else []) ++
    (if d.content ≠ [] then [Event.content d.content] else [])

/-- Processing one decoded frame: the accumulators
`(full_thinking, full_response)` are extended and the corresponding
events are yielded, mirroring the two `if` blocks of the source. -/
def deltaStep (useT : Bool) (st : Txt × Txt) (d : Delta) : (Txt × Txt) × List Event :=
  let r := effReasoning useT d
  let s1 := if r ≠ [] then (st.1 ++ r, [Event.thinking r]) else (st.1, ([] : List Event))
  let s2 := if d.content ≠ [] then (st.2 ++ d.content, [Event.content d.content])
            else (st.2, ([] : List Event))
  ((s1.1, s2.1), s1.2 ++ s2.2)

/-- The relay's line loop over the accumulators: lines without the data
prefix, undecodable payloads and frames without choices are skipped
(`continue`), the `[DONE]` sentinel stops the loop (`break`), and frames
are processed by `deltaStep`.  The input list models the complete
sequence of lines delivered by the provider stream. -/
def processLines (useT : Bool) : Txt × Txt → List RawLine → (Txt × Txt) × List Event
  | st, [] => (st, [])
  | st, RawLine.doneLine :: _ => (st, [])
  | st, RawLine.frame d :: ls =>
      let s1 := deltaStep useT st d
      let s2 := processLines useT s1.1 ls
      (s2.1, s1.2 ++ s2.2)
  | st, RawLine.noData :: ls => processLines useT st ls
  | st, RawLine.badJson :: ls => processLines useT st ls
  | st, RawLine.noChoices :: ls => processLines useT st ls

/-- How the provider call turns out: a non-2xx response, a complete
stream of lines, or a stream interrupted by an exception after some
lines were already processed. -/
inductive Outcome
  | httpError (status : ℕ) (body : Txt)
  | ok (lines : List RawLine)
  | failAfter (lines : List RawLine) (cause : ErrCause)

/-- The wrapped thinking block prepended to the saved message. -/
def wrapThinking (t : Txt) : Txt :=
  "<thinking>\n".data ++ t ++ "\n</thinking>\n\n".data

/-- The message persisted after a successful stream: saved only when the
accumulated answer is non-empty, and prefixed by the wrapped thinking
block when thinking text accumulated. -/
def savedMessage (full_thinking full_response : Txt) : Option Txt :=
  if full_response ≠ [] then
    some (if full_thinking ≠ [] then wrapThinking full_thinking ++ full_response
          else full_response)
  else none

/-- `LLMService.chat_stream`, from the provider request on: the yielded
event sequence and the persisted assistant message.  `refs` is the
`rag_references` list produced by retrieval (a `references` event is
yielded only when it is non-empty). -/
def chat_stream (useT : Bool) (refs : List (Txt × ℚ)) (o : Outcome) :
    List Event × Option Txt :=
  match o with
  | Outcome.httpError s body => ([Event.error (ErrCause.api s body)], none)
  | Outcome.ok lines =>
      let r := processLines useT ([], []) lines
      (r.2 ++ (if refs ≠ [] then [Event.references refs] else []) ++ [Event.done],
        savedMessage r.1.1 r.1.2)
  | Outcome.failAfter lines cause =>
      let r := processLines useT ([], []) lines
      (r.2 ++ [Event.error cause], none)

/- ============ Relay lemmas ============ -/

theorem deltaStep_spec (useT : Bool) (st : Txt × Txt) (d : Delta) :
    deltaStep useT st d =
      ((st.1 ++ effReasoning useT d, st.2 ++ d.content), deltaEvents useT d) := by
  unfold deltaStep deltaEvents
  by_cases hr : effReasoning useT d = [] <;> by_cases hc : d.content = [] <;>
    simp [hr, hc]

theorem processLines_frames (useT : Bool) (st : Txt × Txt) (ds : List Delta)
    (rest : List RawLine) :
    processLines useT st (ds.map RawLine.frame ++ rest) =
      ((processLines useT
          (st.1 ++ (ds.map (effReasoning useT)).flatten,
           st.2 ++ (ds.map Delta.content).flatten) rest).1,
        ds.flatMap (deltaEvents useT) ++
          (processLines useT
            (st.1 ++ (ds.map (effReasoning useT)).flatten,
             st.2 ++ (ds.map Delta.content).flatten) rest).2) := by
  induction ds generalizing st with
  | nil => simp [processLines]
  | cons d ds ih =>
      simp only [List.map_cons, List.cons_append, processLines, deltaStep_spec,
        List.append_eq, List.flatMap_cons, List.flatten_cons]
      rw [ih]
      simp [List.append_assoc]

theorem deltaEvents_shape (useT : Bool) (d : Delta) (e : Event)
    (he : e ∈ deltaEvents useT d) :
    (∃ t, e = Event.thinking t) ∨ ∃ t, e = Event.content t := by
  unfold deltaEvents at he
  rcases List.mem_append.mp he with h | h
  · left
    by_cases hr : effReasoning useT d = [] <;> simp [hr] at h
    exact ⟨_, h⟩
  · right
    by_cases hc : d.content = [] <;> simp [hc] at h
    exact ⟨_, h⟩

theorem processLines_no_terminal (useT : Bool) (st : Txt × Txt)
    (lines : List RawLine) (e : Event) (he : e ∈ (processLines useT st lines).2) :
    (∃ t, e = Event.thinking t) ∨ ∃ t, e = Event.content t := by
  induction lines generalizing st with
  | nil => simp [processLines] at he
  | cons l ls ih =>
      cases l with
      | doneLine => simp [processLines] at he
      | frame d =>
          simp only [processLines, deltaStep_spec, List.mem_append] at he
          rcases he with he | he
          · exact deltaEvents_shape useT d e he
          · exact ih _ he
      | noData => exact ih _ (by simpa [processLines] using he)
      | badJson => exact ih _ (by simpa [processLines] using he)
      | noChoices => exact ih _ (by simpa [processLines] using he)

theorem processLines_contentOnly (useT : Bool) (cs : List Txt) (st : Txt × Txt)
    (h : ∀ c ∈ cs, c ≠ []) :
    processLines useT st
        (cs.map (fun c => RawLine.frame { content := c }) ++ [RawLine.doneLine]) =
      ((st.1, st.2 ++ cs.flatten), cs.map Event.content) := by
  induction cs generalizing st with
  | nil => simp [processLines]
  | cons c cs ih =>
      have hc : c ≠ [] := h c (by simp)
      have heff : effReasoning useT ({ content := c } : Delta) = [] := by
        cases useT <;> simp [effReasoning, pyOrTxt]
      simp only [List.map_cons, List.cons_append, processLines, deltaStep_spec, heff,
        List.append_eq]
      rw [ih _ (fun x hx => h x (by simp [hx]))]
      simp [deltaEvents, heff, hc, List.append_assoc]

/-- C1: when the provider stream delivers content deltas followed by the
`[DONE]` sentinel, the relay yields one `content` event per delta in
arrival order followed by exactly one `done` event, and persists the
concatenation of the deltas exactly when it is non-empty; with thinking
mode enabled and accumulated reasoning non-empty, the persisted message
is the concatenated content prefixed by the wrapped thinking block; and
a message is persisted only when the accumulated answer is non-empty. -/
theorem chat_stream_relay_correct :
    (∀ (useT : Bool) (cs : List Txt), (∀ c ∈ cs, c ≠ []) →
      chat_stream useT []
          (Outcome.ok (cs.map (fun c => RawLine.frame { content := c }) ++
            [RawLine.doneLine])) =
        (cs.map Event.content ++ [Event.done],
          if cs.flatten ≠ [] then some cs.flatten else none)) ∧
    (∀ ds : List Delta,
      (ds.map (effReasoning true)).flatten ≠ [] →
      (ds.map Delta.content).flatten ≠ [] →
      (chat_stream true []
          (Outcome.ok (ds.map RawLine.frame ++ [RawLine.doneLine]))).2 =
        some (wrapThinking ((ds.map (effReasoning true)).flatten) ++
          (ds.map Delta.content).flatten)) ∧
    (∀ (useT : Bool) (refs : List (Txt × ℚ)) (lines : List RawLine),
      (processLines useT ([], []) lines).1.2 = [] →
      (chat_stream useT refs (Outcome.ok lines)).2 = none) := by
  refine ⟨?_, ?_, ?_⟩
  · intro useT cs h
    rw [chat_stream, processLines_contentOnly useT cs _ h]
    rw [savedMessage]
    simp
  · intro ds hR hC
    rw [chat_stream, processLines_frames]
    simp only [processLines]
    rw [savedMessage]
    simp [hR, hC]
  · intro useT refs lines h
    rw [chat_stream, savedMessage]
    simp [h]

/-- C1 witness: the spec's streaming scenario, deltas `"Hi"` and
`" there"` then `[DONE]`, and the spec's thinking scenario. -/
theorem chat_stream_relay_correct_witness :
    chat_stream false []
        (Outcome.ok [RawLine.frame { content := "Hi".data },
          RawLine.frame { content := " there".data }, RawLine.doneLine]) =
      ([Event.content "Hi".data, Event.content " there".data, Event.done],
        some "Hi there".data) ∧
    (chat_stream true []
        (Outcome.ok [RawLine.frame { reasoning_content := "step1".data },
          RawLine.frame { content := "42".data }, RawLine.doneLine])).2 =
      some (wrapThinking "step1".data ++ "42".data) := by
  constructor
  · have h := chat_stream_relay_correct.1 false ["Hi".data, " there".data] (by decide)
    simpa using h
  · have h := chat_stream_relay_correct.2.1
      [{ reasoning_content := "step1".data }, { content := "42".data }]
      (by decide) (by decide)
    simpa [effReasoning, pyOrTxt] using h

/-- C4: every relay run ends in exactly one terminal event (`done` or
`error`) with no terminal event before it and nothing after it; on the
failure paths no message is persisted; and an undecodable line is
skipped without aborting the stream and without yielding any event. -/
theorem chat_stream_terminal :
    (∀ (useT : Bool) (refs : List (Txt × ℚ)) (o : Outcome),
      ∃ pre t, (chat_stream useT refs o).1 = pre ++ [t] ∧
        (t = Event.done ∨ ∃ c, t = Event.error c) ∧
        ∀ e ∈ pre, e ≠ Event.done ∧ ∀ c, e ≠ Event.error c) ∧
    (∀ (useT : Bool) (refs : List (Txt × ℚ)) (lines : List RawLine) (cause : ErrCause),
      (chat_stream useT refs (Outcome.failAfter lines cause)).2 = none) ∧
    (∀ (useT : Bool) (refs : List (Txt × ℚ)) (status : ℕ) (body : Txt),
      (chat_stream useT refs (Outcome.httpError status body)).2 = none) ∧
    (∀ (useT : Bool) (refs : List (Txt × ℚ)) (pre post : List RawLine),
      chat_stream useT refs (Outcome.ok (pre ++ RawLine.badJson :: post)) =
        chat_stream useT refs (Outcome.ok (pre ++ post))) := by
  have hskip : ∀ (useT : Bool) (st : Txt × Txt) (pre post : List RawLine),
      processLines useT st (pre ++ RawLine.badJson :: post) =
        processLines useT st (pre ++ post) := by
    intro useT st pre post
    induction pre generalizing st with
    | nil => simp [processLines]
    | cons l pre ih =>
        cases l with
        | doneLine => simp [processLines]
        | frame d =>
            simp only [List.cons_append, processLines, List.append_eq]
            rw [ih]
        | noData =>
            simp only [List.cons_append, processLines, List.append_eq]
            rw [ih]
        | badJson =>
            simp only [List.cons_append, processLines, List.append_eq]
            rw [ih]
        | noChoices =>
            simp only [List.cons_append, processLines, List.append_eq]
            rw [ih]
  refine ⟨?_, ?_, ?_, ?_⟩
  · intro useT refs o
    cases o with
    | httpError s body =>
        exact ⟨[], Event.error (ErrCause.api s body), by simp [chat_stream],
          Or.inr ⟨_, rfl⟩, by simp⟩
    | ok lines =>
        refine ⟨(processLines useT ([], []) lines).2 ++
          (if refs ≠ [] then [Event.references refs] else []), Event.done,
          by simp [chat_stream], Or.inl rfl, ?_⟩
        intro e he
        rcases List.mem_append.mp he with he | he
        · rcases processLines_no_terminal useT _ lines e he with ⟨t, rfl⟩ | ⟨t, rfl⟩ <;>
            simp
        · by_cases hr : refs = [] <;> simp [hr] at he
          subst he; simp
    | failAfter lines cause =>
        refine ⟨(processLines useT ([], []) lines).2, Event.error cause,
          by simp [chat_stream], Or.inr ⟨_, rfl⟩, ?_⟩
        intro e he
        rcases processLines_no_terminal useT _ lines e he with ⟨t, rfl⟩ | ⟨t, rfl⟩ <;>
          simp
  · intro useT refs lines cause
    simp [chat_stream]
  · intro useT refs status body
    simp [chat_stream]
  · intro useT refs pre post
    simp only [chat_stream]
    rw [hskip]

/-- C4 witness: a concrete failing stream persists nothing and ends in
one `error` event, and a concrete malformed line is dropped. -/
theorem chat_stream_terminal_witness :
    (chat_stream false [] (Outcome.failAfter [RawLine.frame { content := "x".data }]
        ErrCause.timeout)).2 = none ∧
    chat_stream false [] (Outcome.ok [RawLine.badJson, RawLine.doneLine]) =
      chat_stream false [] (Outcome.ok [RawLine.doneLine]) := by
  refine ⟨chat_stream_terminal.2.1 false [] _ ErrCause.timeout, ?_⟩
  exact chat_stream_terminal.2.2.2 false [] [] [RawLine.doneLine]

/- ============ `LLMService.cosine_similarity` ============ -/

/-- `LLMService.cosine_similarity`.  `sq` models `math.sqrt`, an external
library function passed in explicitly (ℚ has no square root); theorems
constrain it by the algebraic properties of the real square root they
need.  Mirrors the source: a length mismatch or an empty first vector
returns `0`, a zero norm returns `0`, otherwise `dot / (‖a‖·‖b‖)`. -/
def cosine_similarity (sq : ℚ → ℚ) (a b : List ℚ) : ℚ :=
  if a.length ≠ b.length ∨ a = [] then 0
  else if sq ((a.map (fun x => x * x)).sum) = 0 ∨ sq ((b.map (fun x => x * x)).sum) = 0
    then 0
  else ((a.zip b).map (fun p => p.1 * p.2)).sum /
    (sq ((a.map (fun x => x * x)).sum) * sq ((b.map (fun x => x * x)).sum))

theorem zip_self_dot (v : List ℚ) :
    ((v.zip v).map (fun p => p.1 * p.2)).sum = ((v.map (fun x => x * x)).sum) := by
  induction v with
  | nil => simp
  | cons x v ih => simp [ih]

theorem sum_squares_nonneg (v : List ℚ) : 0 ≤ (v.map (fun x => x * x)).sum := by
  induction v with
  | nil => simp
  | cons x v ih =>
      simp only [List.map_cons, List.sum_cons]
      exact add_nonneg (mul_self_nonneg x) ih

theorem sum_squares_pos (v : List ℚ) (h : ∃ x ∈ v, x ≠ 0) :
    0 < (v.map (fun x => x * x)).sum := by
  induction v with
  | nil => simp at h
  | cons y v ih =>
      simp only [List.map_cons, List.sum_cons]
      rcases h with ⟨x, hx, hx0⟩
      rcases List.mem_cons.mp hx with rfl | hx
      · exact add_pos_of_pos_of_nonneg (mul_self_pos.mpr hx0) (sum_squares_nonneg v)
      · exact add_pos_of_nonneg_of_pos (mul_self_nonneg y) (ih ⟨x, hx, hx0⟩)

theorem sum_squares_zero (v : List ℚ) (h : ∀ x ∈ v, x = 0) :
    (v.map (fun x => x * x)).sum = 0 := by
  induction v with
  | nil => simp
  | cons y v ih =>
      have hy := h y (by simp)
      simp only [List.map_cons, List.sum_cons, hy]
      rw [ih (fun x hx => h x (by simp [hx]))]
      ring

/-- C8: with `sq` behaving like the real square root (`sq x = 0` exactly
at `0`, and squaring to the argument at the point used),
`cosine_similarity sq v v = 1` for every vector with a non-zero entry,
and the similarity is `0` when the lengths differ or when either vector
is all zeros (zero norm); totality of the Lean function models that the
source never raises. -/
theorem cosine_similarity_spec (sq : ℚ → ℚ) (hsq0 : ∀ x, sq x = 0 ↔ x = 0) :
    (∀ v : List ℚ, (∃ x ∈ v, x ≠ 0) →
      sq ((v.map (fun x => x * x)).sum) * sq ((v.map (fun x => x * x)).sum) =
        (v.map (fun x => x * x)).sum →
      cosine_similarity sq v v = 1) ∧
    (∀ a b : List ℚ, a.length ≠ b.length → cosine_similarity sq a b = 0) ∧
    (∀ a b : List ℚ, (∀ x ∈ a, x = 0) ∨ (∀ x ∈ b, x = 0) →
      cosine_similarity sq a b = 0) := by
  refine ⟨?_, ?_, ?_⟩
  · intro v hv hmul
    have hne : v ≠ [] := by
      rcases hv with ⟨x, hx, _⟩
      exact List.ne_nil_of_mem hx
    have hS : (0 : ℚ) < (v.map (fun x => x * x)).sum := sum_squares_pos v hv
    have hsqne : sq ((v.map (fun x => x * x)).sum) ≠ 0 := by
      intro h0
      exact absurd ((hsq0 _).mp h0) (ne_of_gt hS)
    rw [cosine_similarity, if_neg (by simp [hne]),
      if_neg (by push_neg; exact ⟨hsqne, hsqne⟩), zip_self_dot, hmul]
    exact div_self (ne_of_gt hS)
  · intro a b h
    rw [cosine_similarity, if_pos (Or.inl h)]
  · intro a b h
    by_cases hlen : a.length ≠ b.length ∨ a = []
    · rw [cosine_similarity, if_pos hlen]
    · rw [cosine_similarity, if_neg hlen]
      rcases h with h | h
      · rw [if_pos (Or.inl ((hsq0 _).mpr (sum_squares_zero a h)))]
      · rw [if_pos (Or.inr ((hsq0 _).mpr (sum_squares_zero b h)))]

/-- C8 witness: with a concrete square-root table, the similarity of
`[3, 4]` with itself is `1`, and an all-zero / length-mismatched pair
scores `0`. -/
theorem cosine_similarity_spec_witness :
    cosine_similarity (fun x => if x = 25 then 5 else x) [3, 4] [3, 4] = 1 ∧
    cosine_similarity (fun x => if x = 25 then 5 else x) [0, 0] [1, 1] = 0 ∧
    cosine_similarity (fun x => if x = 25 then 5 else x) [1] [1, 1] = 0 := by
  have hsq0 : ∀ x : ℚ, (if x = 25 then (5 : ℚ) else x) = 0 ↔ x = 0 := by
    intro x
    by_cases h : x = (25 : ℚ)
    · subst h; norm_num
    · simp [h]
  refine ⟨?_, ?_, ?_⟩
  · exact (cosine_similarity_spec _ hsq0).1 [3, 4] ⟨3, by norm_num, by norm_num⟩
      (by norm_num)
  · exact (cosine_similarity_spec _ hsq0).2.2 [0, 0] [1, 1]
      (Or.inl (by intro x hx; simpa using hx))
  · exact (cosine_similarity_spec _ hsq0).2.1 [1] [1, 1] (by norm_num)

/- ============ `LLMService.get_embeddings_batch` ============ -/

/-- One element of the embeddings response array `data["data"]`:
`{"embedding": ..., "index": ...}`, the index defaulting to `0` when the
provider omits it (`x.get("index", 0)`). -/
structure EmbItem where
  embedding : List ℚ
  index : ℕ := 0
deriving DecidableEq

/-- `sorted(data["data"], key=lambda x: x.get("index", 0))`: Python's
stable ascending sort by the reported index. -/
def sortByIndex (items : List EmbItem) : List EmbItem :=
  List.insertionSort (fun a b => a.index ≤ b.index) items

instance : IsTotal EmbItem (fun a b => a.index ≤ b.index) :=
  ⟨fun a b => Nat.le_total a.index b.index⟩

instance : IsTrans EmbItem (fun a b => a.index ≤ b.index) :=
  ⟨fun _ _ _ h1 h2 => Nat.le_trans h1 h2⟩

instance : IsAntisymm EmbItem (fun a b => a.index < b.index) :=
  ⟨fun _ _ h1 h2 => absurd (h1.trans h2) (lt_irrefl _)⟩

/-- Processing one batch request: a failing request (non-2xx status or
exception, modelled by `respond batch = none`) maps every item of the
batch to the empty vector; a successful response is sorted by reported
index and its embeddings are extracted in that order. -/
def batchEmbeddings (respond : List Txt → Option (List EmbItem)) (batch : List Txt) :
    List (List ℚ) :=
  match respond batch with
  | none => batch.map (fun _ => [])
  | some items => (sortByIndex items).map EmbItem.embedding

/-- The batching loop `for i in range(0, len(texts), batch_size)` with a
positive step, expressed as take/drop recursion over the texts.  The
`bs = 0` guard is unreachable from `get_embeddings_batch`, which maps a
zero step to the `ValueError` that `range` raises. -/
def goBatches (respond : List Txt → Option (List EmbItem)) (bs : ℕ) :
    List Txt → List (List ℚ) := fun texts =>
  if h : texts = [] ∨ bs = 0 then []
  else batchEmbeddings respond (texts.take bs) ++ goBatches respond bs (texts.drop bs)
termination_by texts => texts.length
decreasing_by
  push_neg at h
  rw [List.length_drop]
  exact Nat.sub_lt (List.length_pos.mpr h.1) (Nat.pos_of_ne_zero h.2)

/-- `LLMService.get_embeddings_batch`.  An unconfigured embedding model
returns one empty vector per text without any network call; a zero
`batch_size` makes `range` raise `ValueError`; a negative `batch_size`
makes the range empty, so nothing is ever requested or returned. -/
def get_embeddings_batch (configured : Bool)
    (respond : List Txt → Option (List EmbItem)) (texts : List Txt)
    (batch_size : ℤ) : Option (List (List ℚ)) :=
  if !configured then some (texts.map (fun _ => []))
  else if batch_size = 0 then none
  else if batch_size < 0 then some []
  else some (goBatches respond batch_size.toNat texts)

/-- The well-formed provider response for a batch: exactly one item per
input text, carrying its position as `index` and the embedding of its
text, in some order.  (`emb` is the embedding the provider associates to
a text.) -/
def canonItems (emb : Txt → List ℚ) (batch : List Txt) : List EmbItem :=
  batch.enum.map (fun p => { embedding := emb p.2, index := p.1 })

theorem canonItems_length (emb : Txt → List ℚ) (batch : List Txt) :
    (canonItems emb batch).length = batch.length := by
  simp [canonItems]

theorem canonItems_map_index (emb : Txt → List ℚ) (batch : List Txt) :
    (canonItems emb batch).map EmbItem.index = List.range batch.length := by
  rw [canonItems, List.map_map, ← List.enum_map_fst batch]
  rfl

theorem canonItems_map_embedding (emb : Txt → List ℚ) (batch : List Txt) :
    (canonItems emb batch).map EmbItem.embedding = batch.map emb := by
  rw [canonItems, List.map_map]
  have h : (batch.map emb) = List.map emb (List.map Prod.snd batch.enum) := by
    rw [List.enum_map_snd]
  rw [h, List.map_map]
  rfl

theorem canonItems_sorted (emb : Txt → List ℚ) (batch : List Txt) :
    List.Sorted (fun a b : EmbItem => a.index < b.index) (canonItems emb batch) := by
  rw [canonItems, List.Sorted, List.pairwise_map]
  have h := List.pairwise_lt_range batch.length
  rw [← List.enum_map_fst batch, List.pairwise_map] at h
  exact h

/-- Sorting any permutation of the canonical response by index recovers
the canonical response (indices `0 .. n-1` are distinct). -/
theorem sortByIndex_canon (emb : Txt → List ℚ) (batch : List Txt)
    (items : List EmbItem) (h : items.Perm (canonItems emb batch)) :
    sortByIndex items = canonItems emb batch := by
  have hperm : (sortByIndex items).Perm (canonItems emb batch) :=
    (List.perm_insertionSort _ items).trans h
  have hsortedLe : List.Sorted (fun a b : EmbItem => a.index ≤ b.index)
      (sortByIndex items) := List.sorted_insertionSort _ items
  have hnodupmap : ((sortByIndex items).map EmbItem.index).Nodup := by
    have hcanon : ((canonItems emb batch).map EmbItem.index).Nodup := by
      rw [canonItems_map_index]
      exact List.nodup_range _
    exact ((hperm.map EmbItem.index).symm).nodup hcanon
  have hne : List.Pairwise (fun a b : EmbItem => a.index ≠ b.index)
      (sortByIndex items) := List.pairwise_map.mp hnodupmap
  have hsortedLt : List.Sorted (fun a b : EmbItem => a.index < b.index)
      (sortByIndex items) :=
    (hsortedLe.and hne).imp (fun hab => lt_of_le_of_ne hab.1 hab.2)
  exact List.eq_of_perm_of_sorted hperm hsortedLt (canonItems_sorted emb batch)

theorem batchEmbeddings_none (respond : List Txt → Option (List EmbItem))
    (batch : List Txt) (hr : respond batch = none) :
    batchEmbeddings respond batch = batch.map (fun _ => []) := by
  rw [batchEmbeddings, hr]

theorem batchEmbeddings_some (respond : List Txt → Option (List EmbItem))
    (emb : Txt → List ℚ) (batch : List Txt) (items : List EmbItem)
    (hr : respond batch = some items) (h : items.Perm (canonItems emb batch)) :
    batchEmbeddings respond batch = batch.map emb := by
  have hm : batchEmbeddings respond batch = (sortByIndex items).map EmbItem.embedding := by
    rw [batchEmbeddings, hr]
  rw [hm, sortByIndex_canon emb batch items h, canonItems_map_embedding]

theorem batchEmbeddings_length (respond : List Txt → Option (List EmbItem))
    (emb : Txt → List ℚ)
    (hresp : ∀ batch items, respond batch = some items →
      items.Perm (canonItems emb batch))
    (batch : List Txt) : (batchEmbeddings respond batch).length = batch.length := by
  cases hr : respond batch with
  | none => rw [batchEmbeddings_none respond batch hr, List.length_map]
  | some items =>
      rw [batchEmbeddings_some respond emb batch items hr (hresp batch items hr),
        List.length_map]

theorem goBatches_len_get (respond : List Txt → Option (List EmbItem))
    (emb : Txt → List ℚ) (bs : ℕ) (hbs : 0 < bs)
    (hresp : ∀ batch items, respond batch = some items →
      items.Perm (canonItems emb batch)) :
    ∀ (n : ℕ) (texts : List Txt), texts.length ≤ n →
      (goBatches respond bs texts).length = texts.length ∧
      ∀ i t, texts.get? i = some t →
        (goBatches respond bs texts).get? i =
          some (match respond ((texts.drop (bs * (i / bs))).take bs) with
                | none => []
                | some _ => emb t) := by
  intro n
  induction n with
  | zero =>
      intro texts hlen
      have hte : texts = [] := List.eq_nil_of_length_eq_zero (Nat.le_zero.mp hlen)
      subst hte
      refine ⟨by rw [goBatches]; simp, ?_⟩
      intro i t ht
      simp at ht
  | succ n ih =>
      intro texts hlen
      by_cases hte : texts = []
      · subst hte
        refine ⟨by rw [goBatches]; simp, ?_⟩
        intro i t ht
        simp at ht
      · have hcond : ¬(texts = [] ∨ bs = 0) := by
          push_neg
          exact ⟨hte, Nat.pos_iff_ne_zero.mp hbs⟩
        have hR := ih (texts.drop bs) (by
          rw [List.length_drop]
          have h1 : 0 < texts.length := List.length_pos.mpr hte
          omega)
        constructor
        · rw [goBatches, dif_neg hcond, List.length_append,
            batchEmbeddings_length respond emb hresp, hR.1, List.length_take,
            List.length_drop]
          omega
        · intro i t ht
          have hi : i < texts.length := by
            rcases List.get?_eq_some.mp ht with ⟨hlt, _⟩
            exact hlt
          rw [goBatches, dif_neg hcond]
          by_cases hib : i < bs
          · have hq : i / bs = 0 := Nat.div_eq_of_lt hib
            rw [List.get?_append (by
              rw [batchEmbeddings_length respond emb hresp, List.length_take]
              omega)]
            have htake : (texts.take bs).get? i = some t := by
              rw [List.get?_take hib]
              exact ht
            rw [hq, Nat.mul_zero, List.drop_zero]
            cases hr : respond (texts.take bs) with
            | none =>
                rw [batchEmbeddings_none respond _ hr, List.get?_map, htake]
                rfl
            | some items =>
                rw [batchEmbeddings_some respond emb _ items hr
                  (hresp _ items hr), List.get?_map, htake]
                rfl
          · have hble : bs ≤ i := Nat.le_of_not_lt hib
            have hlenBeq : (batchEmbeddings respond (texts.take bs)).length = bs := by
              rw [batchEmbeddings_length respond emb hresp, List.length_take]
              omega
            rw [List.get?_append_right (by rw [hlenBeq]; exact hble), hlenBeq]
            have hdropget : (texts.drop bs).get? (i - bs) = some t := by
              rw [List.get?_drop]
              have hsum : bs + (i - bs) = i := by omega
              rw [hsum]
              exact ht
            rw [hR.2 (i - bs) t hdropget]
            have hdiv : bs * (i / bs) = bs + bs * ((i - bs) / bs) := by
              have hi2 : i = (i - bs) + bs := by omega
              calc bs * (i / bs) = bs * (((i - bs) + bs) / bs) := by rw [← hi2]
                _ = bs * ((i - bs) / bs + 1) := by rw [Nat.add_div_right _ hbs]
                _ = bs + bs * ((i - bs) / bs) := by ring
            rw [List.drop_drop, hdiv]

/-- C3 (amended): with a positive `batch_size` and every successful batch
response a permutation of one correctly indexed item per input,
`get_embeddings_batch` returns one vector per text, `vectors[i]` being
the provider embedding of `texts[i]`, except that every text of a failed
batch maps to the empty vector while the other batches are still
processed. -/
theorem get_embeddings_batch_spec (respond : List Txt → Option (List EmbItem))
    (emb : Txt → List ℚ) (texts : List Txt) (batch_size : ℤ)
    (hbs : 0 < batch_size)
    (hresp : ∀ batch items, respond batch = some items →
      items.Perm (canonItems emb batch)) :
    ∃ v, get_embeddings_batch true respond texts batch_size = some v ∧
      v.length = texts.length ∧
      ∀ i t, texts.get? i = some t →
        v.get? i = some (match
            respond ((texts.drop (batch_size.toNat * (i / batch_size.toNat))).take
              batch_size.toNat) with
          | none => []
          | some _ => emb t) := by
  have htn : 0 < batch_size.toNat := by omega
  refine ⟨goBatches respond batch_size.toNat texts, ?_, ?_, ?_⟩
  · rw [get_embeddings_batch]
    rw [if_neg (by simp), if_neg (by omega), if_neg (by omega)]
  · exact (goBatches_len_get respond emb batch_size.toNat htn hresp texts.length
      texts le_rfl).1
  · exact (goBatches_len_get respond emb batch_size.toNat htn hresp texts.length
      texts le_rfl).2

/-- C3 witness: three texts in batches of two, with a provider that
answers every batch with its items in reversed index order. -/
theorem get_embeddings_batch_spec_witness :
    ∃ v, get_embeddings_batch true
        (fun b => some ((canonItems (fun t => [(t.length : ℚ)]) b).reverse))
        [['a'], ['b', 'c'], ['d']] 2 = some v ∧
      v.length = 3 ∧
      ∀ i t, ([['a'], ['b', 'c'], ['d']] : List Txt).get? i = some t →
        v.get? i = some (match
            (fun b => some ((canonItems (fun t => [(t.length : ℚ)]) b).reverse))
              ((([['a'], ['b', 'c'], ['d']] : List Txt).drop
                ((2 : ℤ).toNat * (i / (2 : ℤ).toNat))).take (2 : ℤ).toNat) with
          | none => []
          | some _ => [(t.length : ℚ)]) := by
  have h := get_embeddings_batch_spec
    (fun b => some ((canonItems (fun t => [(t.length : ℚ)]) b).reverse))
    (fun t => [(t.length : ℚ)]) [['a'], ['b', 'c'], ['d']] 2 (by norm_num)
    (fun batch items hit => by
      rw [Option.some.injEq] at hit
      rw [← hit]
      exact List.reverse_perm _)
  rcases h with ⟨v, h1, h2, h3⟩
  exact ⟨v, h1, by rw [h2]; rfl, h3⟩

/-- C3 counterexample: the claim quantifies over every `batch_size`, but
with `batch_size = -1` the Python `range` is empty, so the call returns
an empty list instead of one vector per text. -/
theorem get_embeddings_batch_negative_cex :
    get_embeddings_batch true (fun _ => none) [['a']] (-1) = some [] ∧
    ([] : List (List ℚ)).length ≠ ([['a']] : List Txt).length := by
  exact ⟨rfl, by decide⟩

/- ============ `LLMService.build_rag_context`: candidate ranking ============ -/

/-- One stored chunk as `Database.get_chunks_with_embedding` returns it:
content plus the decoded embedding (an empty list when the stored blob
decodes to nothing). -/
structure Chunk where
  content : Txt
  embedding : List ℚ
deriving DecidableEq

/-- One transient ranking candidate `{"content": ..., "score": ...}`. -/
structure Cand where
  content : Txt
  score : ℚ
deriving DecidableEq

/-- Python `round(x, 2)` in the rational model: scale by 100, round to
the nearest integer, scale back.  (Mathlib `round` rounds halves up
where Python rounds halves to even; they agree off midpoints.) -/
def round2 (x : ℚ) : ℚ := (round (x * 100) : ℤ) / 100

/-- Python `candidates.sort(key=lambda x: x["score"], reverse=True)`:
stable descending sort by score. -/
def pySortDesc (l : List Cand) : List Cand :=
  List.insertionSort (fun a b => b.score ≤ a.score) l

instance : IsTotal Cand (fun a b => b.score ≤ a.score) :=
  ⟨fun a b => le_total b.score a.score⟩

instance : IsTrans Cand (fun a b => b.score ≤ a.score) :=
  ⟨fun _ _ _ h1 h2 => le_trans h2 h1⟩

/-- The inner loop over one page of chunks: a chunk with an empty decoded
embedding is skipped, and a chunk whose cosine score reaches the
threshold becomes a candidate carrying the rounded score. -/
def pageCands (sq : ℚ → ℚ) (qe : List ℚ) (threshold : ℚ) (page : List Chunk) :
    List Cand :=
  page.filterMap (fun ch =>
    if ch.embedding = [] then none
    else if threshold ≤ cosine_similarity sq qe ch.embedding then
      some { content := ch.content,
             score := round2 (cosine_similarity sq qe ch.embedding) }
    else none)

/-- The paginated candidate scan of `build_rag_context`: pages of 200
chunks (`store[offset : offset + 200]`) are filtered into candidates
until a page comes back empty or at least 50 candidates accumulated
(early exit). -/
def scanPages (sq : ℚ → ℚ) (qe : List ℚ) (threshold : ℚ) :
    List Chunk → List Cand → List Cand := fun remaining acc =>
  if h : remaining.take 200 = [] then acc
  else if 50 ≤ (acc ++ pageCands sq qe threshold (remaining.take 200)).length then
    acc ++ pageCands sq qe threshold (remaining.take 200)
  else
    scanPages sq qe threshold (remaining.drop 200)
      (acc ++ pageCands sq qe threshold (remaining.take 200))
termination_by remaining => remaining.length
decreasing_by
  rw [List.take_eq_nil_iff] at h
  push_neg at h
  rw [List.length_drop]
  exact Nat.sub_lt (List.length_pos.mpr h.2) (by norm_num)

/-- The similarity-ranking stage of `build_rag_context`: scan, sort the
candidates descending by (rounded) score, and truncate the pool to
`max(top_k * 2, 10)` for the rerank stage. -/
def build_rag_candidates (sq : ℚ → ℚ) (store : List Chunk) (qe : List ℚ)
    (threshold : ℚ) (top_k : ℕ) : List Cand :=
  (pySortDesc (scanPages sq qe threshold store [])).take (max (top_k * 2) 10)

theorem pageCands_mem (sq : ℚ → ℚ) (qe : List ℚ) (threshold : ℚ)
    (page : List Chunk) (c : Cand) (hc : c ∈ pageCands sq qe threshold page) :
    ∃ ch ∈ page, ch.embedding ≠ [] ∧
      threshold ≤ cosine_similarity sq qe ch.embedding ∧
      c = { content := ch.content,
            score := round2 (cosine_similarity sq qe ch.embedding) } := by
  rw [pageCands, List.mem_filterMap] at hc
  rcases hc with ⟨ch, hch, heq⟩
  split_ifs at heq with h1 h2
  exact ⟨ch, hch, h1, h2, (Option.some.inj heq).symm⟩

theorem scanPages_mem (sq : ℚ → ℚ) (qe : List ℚ) (threshold : ℚ) :
    ∀ (n : ℕ) (remaining : List Chunk) (acc : List Cand),
      remaining.length ≤ n →
      ∀ c ∈ scanPages sq qe threshold remaining acc,
        c ∈ acc ∨ ∃ ch ∈ remaining, ch.embedding ≠ [] ∧
          threshold ≤ cosine_similarity sq qe ch.embedding ∧
          c = { content := ch.content,
                score := round2 (cosine_similarity sq qe ch.embedding) } := by
  intro n
  induction n with
  | zero =>
      intro remaining acc hlen c hc
      have hre : remaining = [] := List.eq_nil_of_length_eq_zero (Nat.le_zero.mp hlen)
      subst hre
      rw [scanPages, dif_pos (by simp)] at hc
      exact Or.inl hc
  | succ n ih =>
      intro remaining acc hlen c hc
      by_cases hre : remaining = []
      · subst hre
        rw [scanPages, dif_pos (by simp)] at hc
        exact Or.inl hc
      · have hcond : ¬ remaining.take 200 = [] := by
          rw [List.take_eq_nil_iff]
          push_neg
          exact ⟨by norm_num, hre⟩
        rw [scanPages, dif_neg hcond] at hc
        have hsplit : ∀ x ∈ acc ++ pageCands sq qe threshold (remaining.take 200),
            x ∈ acc ∨ ∃ ch ∈ remaining, ch.embedding ≠ [] ∧
              threshold ≤ cosine_similarity sq qe ch.embedding ∧
              x = { content := ch.content,
                    score := round2 (cosine_similarity sq qe ch.embedding) } := by
          intro x hx
          rcases List.mem_append.mp hx with hx | hx
          · exact Or.inl hx
          · rcases pageCands_mem sq qe threshold _ x hx with ⟨ch, hch, hch1, hch2, hch3⟩
            exact Or.inr ⟨ch, List.take_subset 200 remaining hch, hch1, hch2, hch3⟩
        split_ifs at hc with hearly
        · exact hsplit c hc
        · have hrec := ih (remaining.drop 200)
            (acc ++ pageCands sq qe threshold (remaining.take 200))
            (by
              rw [List.length_drop]
              have h1 : 0 < remaining.length := List.length_pos.mpr hre
              omega) c hc
          rcases hrec with hacc | ⟨ch, hch, hch1, hch2, hch3⟩
          · exact hsplit c hacc
          · exact Or.inr ⟨ch, List.drop_subset 200 remaining hch, hch1, hch2, hch3⟩

/-- C5: every candidate in the pool handed to the rerank stage comes from
a stored chunk whose raw cosine score reaches the threshold (and carries
that score rounded to two decimals), the pool is sorted descending by
score, and it holds at most `max(top_k * 2, 10)` candidates. -/
theorem build_rag_candidates_spec (sq : ℚ → ℚ) (store : List Chunk)
    (qe : List ℚ) (threshold : ℚ) (top_k : ℕ) :
    (∀ c ∈ build_rag_candidates sq store qe threshold top_k,
      ∃ ch ∈ store, ch.embedding ≠ [] ∧
        threshold ≤ cosine_similarity sq qe ch.embedding ∧
        c = { content := ch.content,
              score := round2 (cosine_similarity sq qe ch.embedding) }) ∧
    List.Sorted (fun a b : Cand => b.score ≤ a.score)
      (build_rag_candidates sq store qe threshold top_k) ∧
    (build_rag_candidates sq store qe threshold top_k).length ≤
      max (top_k * 2) 10 := by
  refine ⟨?_, ?_, ?_⟩
  · intro c hc
    have h1 : c ∈ pySortDesc (scanPages sq qe threshold store []) :=
      List.take_subset _ _ hc
    have h2 : c ∈ scanPages sq qe threshold store [] :=
      (List.perm_insertionSort _ _).mem_iff.mp h1
    rcases scanPages_mem sq qe threshold store.length store [] le_rfl c h2 with
      hacc | hgood
    · exact absurd hacc (List.not_mem_nil c)
    · exact hgood
  · exact List.Pairwise.sublist (List.take_sublist _ _)
      (List.sorted_insertionSort _ _)
  · exact List.length_take_le _ _

/-- C5 witness: one matching chunk and one chunk without an embedding;
the pool is the single qualifying candidate, whose originating chunk and
raw score the theorem exposes. -/
theorem build_rag_candidates_spec_witness :
    ({ content := ['a'], score := 1 } : Cand) ∈
      build_rag_candidates (fun x => x)
        [{ content := ['a'], embedding := [1] },
         { content := ['z'], embedding := [] }] [1] (1/2) 1 ∧
    ∃ ch ∈ ([{ content := ['a'], embedding := [1] },
         { content := ['z'], embedding := [] }] : List Chunk),
      ch.embedding ≠ [] ∧
      (1/2 : ℚ) ≤ cosine_similarity (fun x => x) [1] ch.embedding ∧
      ({ content := ['a'], score := 1 } : Cand) =
        { content := ch.content,
          score := round2 (cosine_similarity (fun x => x) [1] ch.embedding) } := by
  have hcos : cosine_similarity (fun x : ℚ => x) [1] [1] = 1 := by
    norm_num [cosine_similarity]
  have hpage : pageCands (fun x : ℚ => x) [1] (1/2)
      [{ content := ['a'], embedding := [1] },
       { content := ['z'], embedding := [] }] =
      [{ content := ['a'], score := 1 }] := by
    rw [pageCands, List.filterMap_cons, List.filterMap_cons, List.filterMap_nil]
    norm_num [hcos, round2, round_eq]
  have ht200 : ([{ content := ['a'], embedding := [1] },
      { content := ['z'], embedding := [] }] : List Chunk).take 200 =
      [{ content := ['a'], embedding := [1] },
       { content := ['z'], embedding := [] }] :=
    List.take_of_length_le (by simp)
  have heval : build_rag_candidates (fun x => x)
      [{ content := ['a'], embedding := [1] },
       { content := ['z'], embedding := [] }] [1] (1/2) 1 =
      [{ content := ['a'], score := 1 }] := by
    rw [build_rag_candidates, scanPages]
    rw [dif_neg (by rw [List.take_eq_nil_iff]; push_neg; exact ⟨by norm_num, by simp⟩)]
    rw [ht200, hpage]
    simp only [List.nil_append]
    rw [if_neg (by simp)]
    rw [List.drop_eq_nil_of_le (by simp)]
    rw [scanPages, dif_pos (by simp)]
    rw [show pySortDesc [({ content := ['a'], score := 1 } : Cand)] =
      [({ content := ['a'], score := 1 } : Cand)] from rfl]
    rw [List.take_of_length_le (by simp)]
  have hmem : ({ content := ['a'], score := 1 } : Cand) ∈
      build_rag_candidates (fun x => x)
        [{ content := ['a'], embedding := [1] },
         { content := ['z'], embedding := [] }] [1] (1/2) 1 := by
    rw [heval]
    exact List.mem_singleton.mpr rfl
  exact ⟨hmem, (build_rag_candidates_spec (fun x => x) _ [1] (1/2) 1).1 _ hmem⟩

/- ============ `LLMService.rerank` and the rerank stage ============ -/

/-- One entry of a rerank response: `index` defaults to `0` when missing
(`r.get("index", 0)`), and the two optional score fields model the
`relevance_score` / `score` keys (absent key = `none`).  The index is an
integer: JSON can carry negative values. -/
structure RRes where
  index : ℤ := 0
  relevance_score : Option ℚ := none
  score : Option ℚ := none
deriving DecidableEq

/-- `r.get("relevance_score") or r.get("score", 0)`: Python `or` falls
through both on a missing key (`None`) and on a zero relevance score
(`0.0` is falsy). -/
def rerankScoreOf (r : RRes) : ℚ :=
  match r.relevance_score with
  | some v => if v = 0 then r.score.getD 0 else v
  | none => r.score.getD 0

/-- `candidates[idx]` with Python list indexing: a non-negative index
reads from the left, a negative index wraps from the right, and anything
outside `[-len, len)` raises `IndexError` (`none`). -/
def pyGetIdx (l : List Cand) (i : ℤ) : Option Cand :=
  if 0 ≤ i then l.get? i.toNat
  else if 0 ≤ (l.length : ℤ) + i then l.get? ((l.length : ℤ) + i).toNat
  else none

/-- The rebuild loop of `build_rag_context` over the rerank results: an
entry with `idx < len(candidates)` appends the candidate at Python index
`idx` with the rounded rerank score replacing the cosine score; an entry
with `idx ≥ len(candidates)` is skipped; an entry with `idx < -len`
raises `IndexError` inside the loop (`none`). -/
def rebuildResults (cands : List Cand) : List RRes → Option (List Cand)
  | [] => some []
  | r :: rs =>
      if r.index < (cands.length : ℤ) then
        match pyGetIdx cands r.index with
        | none => none
        | some c =>
            (rebuildResults cands rs).map
              (fun t => ({ content := c.content,
                           score := round2 (rerankScoreOf r) } : Cand) :: t)
      else rebuildResults cands rs

/-- `data.get("results") or data.get("data") or []`: Python `or` on an
optional list, falling through on a missing key and on an empty list. -/
def pyOrList (o : Option (List RRes)) (dflt : List RRes) : List RRes :=
  match o with
  | some l => if l ≠ [] then l else dflt
  | none => dflt

/-- A decoded rerank response body with its two possible result keys. -/
structure RerankResp where
  results : Option (List RRes) := none
  data : Option (List RRes) := none
deriving DecidableEq

/-- `LLMService.rerank`: an unconfigured rerank model returns `[]`
without a network call; a failed call (non-2xx status, timeout or any
exception, modelled by `httpOutcome = none`) returns `[]`; otherwise the
result list is extracted from `results` or `data`. -/
def rerank (configured : Bool) (httpOutcome : Option RerankResp) : List RRes :=
  if !configured then []
  else
    match httpOutcome with
    | none => []
    | some resp => pyOrList resp.results (pyOrList resp.data [])

/-- The rerank stage of `build_rag_context` on the candidate pool: with a
configured rerank model and a non-empty result list the pool is rebuilt
from the rerank results, re-sorted descending and truncated to `top_k`;
with no rerank model, or an empty result list (every failure), the
already-sorted pool is truncated to `top_k` unchanged. -/
def fuseStage (configured : Bool) (httpOutcome : Option RerankResp)
    (cands : List Cand) (top_k : ℕ) : Option (List Cand) :=
  if configured then
    if rerank configured httpOutcome ≠ [] then
      (rebuildResults cands (rerank configured httpOutcome)).map
        (fun res => (pySortDesc res).take top_k)
    else some (cands.take top_k)
  else some (cands.take top_k)

/-- C6: when the rerank call fails (`none` outcome: non-2xx, timeout,
exception) or yields an empty result list, the final results equal the
results of the same pool with no rerank model configured at all: the
first `top_k` of the embedding-ranked candidates, unmodified. -/
theorem rerank_failure_fallback (cands : List Cand) (top_k : ℕ)
    (httpOutcome other : Option RerankResp)
    (h : rerank true httpOutcome = []) :
    fuseStage true httpOutcome cands top_k = fuseStage false other cands top_k ∧
    fuseStage false other cands top_k = some (cands.take top_k) := by
  constructor
  · rw [fuseStage, if_pos rfl, if_neg (by simp [h])]
    rw [fuseStage, if_neg (by simp)]
  · rw [fuseStage, if_neg (by simp)]

/-- C6 witness: a timed-out call and an empty-results response both fall
back to the untouched head of the candidate pool. -/
theorem rerank_failure_fallback_witness :
    fuseStage true none [{ content := ['a'], score := 1 }] 1 =
      fuseStage false none [{ content := ['a'], score := 1 }] 1 ∧
    fuseStage true (some { results := some [], data := none })
        [{ content := ['a'], score := 1 }] 1 =
      fuseStage false none [{ content := ['a'], score := 1 }] 1 := by
  constructor
  · exact (rerank_failure_fallback [{ content := ['a'], score := 1 }] 1 none none
      rfl).1
  · exact (rerank_failure_fallback [{ content := ['a'], score := 1 }] 1
      (some { results := some [], data := none }) none rfl).1

/-- C7 counterexample: the claim says an out-of-bounds index is dropped,
but a rerank entry with index `-1` is not dropped: Python indexing maps
it to the last candidate, so the rebuilt result list is non-empty where
the claim requires it to be empty. -/
theorem rerank_negative_index_cex :
    fuseStage true
        (some { results := some [{ index := -1, relevance_score := some (7/10),
                                   score := none }], data := none })
        [{ content := ['a'], score := 1 }, { content := ['b'], score := 1/2 }] 5 =
      some [{ content := ['b'], score := 7/10 }] ∧
    some [({ content := ['b'], score := 7/10 } : Cand)] ≠
      some ([] : List Cand) := by
  constructor
  · have hr : rerank true
        (some { results :=
                  some [{ index := -1, relevance_score := some (7/10),
                          score := none }],
                data := none }) =
        [{ index := -1, relevance_score := some (7/10), score := none }] := by
      rw [rerank]
      norm_num [pyOrList]
    have hscore : rerankScoreOf
        { index := -1, relevance_score := some (7/10), score := none } = 7/10 := by
      rw [rerankScoreOf]
      norm_num
    have hget : pyGetIdx [{ content := ['a'], score := 1 },
          { content := ['b'], score := 1/2 }] (-1) =
        some { content := ['b'], score := 1/2 } := by
      rw [pyGetIdx, if_neg (by norm_num), if_pos (by norm_num)]
      rfl
    have hrebuild : rebuildResults
        [{ content := ['a'], score := 1 }, { content := ['b'], score := 1/2 }]
        [{ index := -1, relevance_score := some (7/10), score := none }] =
        some [{ content := ['b'], score := round2 (7/10) }] := by
      rw [rebuildResults, if_pos (by norm_num), hget, rebuildResults, hscore]
      rfl
    rw [fuseStage, if_pos rfl, if_pos (by rw [hr]; simp), hr, hrebuild]
    have hround : round2 (7/10) = 7/10 := by norm_num [round2, round_eq]
    rw [hround]
    rfl
  · intro hco
    rw [Option.some.injEq] at hco
    exact List.cons_ne_nil _ _ hco

/-- C7 (amended): when every returned index is non-negative, each entry
with `index < len(candidates)` maps back to the candidate at that
position with the (rounded) rerank score replacing the cosine score,
entries with `index ≥ len(candidates)` are dropped without error, and
the rebuilt list is re-sorted descending by the new score and truncated
to `top_k`.  (A negative index is not dropped: Python indexing wraps it
or raises, see the counterexample.) -/
theorem rerank_rebuild_spec (cands : List Cand) (rrs : List RRes) (top_k : ℕ)
    (hnn : ∀ r ∈ rrs, 0 ≤ r.index) :
    rebuildResults cands rrs = some (rrs.filterMap (fun r =>
      (cands.get? r.index.toNat).map (fun c =>
        ({ content := c.content, score := round2 (rerankScoreOf r) } : Cand)))) ∧
    (rrs ≠ [] →
      fuseStage true (some { results := some rrs, data := none }) cands top_k =
        some ((pySortDesc (rrs.filterMap (fun r =>
          (cands.get? r.index.toNat).map (fun c =>
            ({ content := c.content,
               score := round2 (rerankScoreOf r) } : Cand))))).take top_k)) ∧
    List.Sorted (fun a b : Cand => b.score ≤ a.score)
      ((pySortDesc (rrs.filterMap (fun r =>
        (cands.get? r.index.toNat).map (fun c =>
          ({ content := c.content,
             score := round2 (rerankScoreOf r) } : Cand))))).take top_k) ∧
    ((pySortDesc (rrs.filterMap (fun r =>
      (cands.get? r.index.toNat).map (fun c =>
        ({ content := c.content,
           score := round2 (rerankScoreOf r) } : Cand))))).take top_k).length ≤
      top_k := by
  have hrebuild : rebuildResults cands rrs = some (rrs.filterMap (fun r =>
      (cands.get? r.index.toNat).map (fun c =>
        ({ content := c.content, score := round2 (rerankScoreOf r) } : Cand)))) := by
    induction rrs with
    | nil => rfl
    | cons r rs ih =>
        have hr : 0 ≤ r.index := hnn r (by simp)
        have hih := ih (fun x hx => hnn x (by simp [hx]))
        rw [rebuildResults, List.filterMap_cons]
        by_cases hidx : r.index < (cands.length : ℤ)
        · have htn : r.index.toNat < cands.length := (Int.toNat_lt hr).mpr hidx
          have hget := List.get?_eq_some.mpr ⟨htn, rfl⟩
          rw [if_pos hidx]
          have hpy : pyGetIdx cands r.index = cands.get? r.index.toNat := by
            rw [pyGetIdx, if_pos hr]
          rw [hpy, hget]
          rw [hih]
          rfl
        · have htn : ¬ r.index.toNat < cands.length := by
            intro hlt
            exact hidx ((Int.toNat_lt hr).mp hlt)
          have hnone : cands.get? r.index.toNat = none :=
            List.get?_eq_none.mpr (Nat.le_of_not_lt htn)
          rw [if_neg hidx, hnone, hih]
          rfl
  refine ⟨hrebuild, ?_, ?_, ?_⟩
  · intro hne
    have hr : rerank true (some { results := some rrs, data := none }) = rrs := by
      rw [rerank]
      simp [pyOrList, hne]
    rw [fuseStage, if_pos rfl, if_pos (by rw [hr]; exact hne), hr, hrebuild]
    rfl
  · exact List.Pairwise.sublist (List.take_sublist _ _)
      (List.sorted_insertionSort _ _)
  · exact List.length_take_le _ _

/-- C7 witness: one in-range entry and one out-of-range entry; the
rebuilt list keeps only the in-range candidate with its rerank score. -/
theorem rerank_rebuild_spec_witness :
    rebuildResults [{ content := ['a'], score := 1 }]
        [{ index := 0, relevance_score := none, score := some 2 },
         { index := 7, relevance_score := none, score := some 3 }] =
      some ([{ index := 0, relevance_score := none, score := some 2 },
         { index := 7, relevance_score := none, score := some 3 }].filterMap
        (fun r => (([{ content := ['a'], score := 1 }] : List Cand).get?
            r.index.toNat).map (fun c =>
          ({ content := c.content, score := round2 (rerankScoreOf r) } : Cand)))) := by
  exact (rerank_rebuild_spec [{ content := ['a'], score := 1 }]
    [{ index := 0, relevance_score := none, score := some 2 },
     { index := 7, relevance_score := none, score := some 3 }] 1
    (by decide)).1

/- ============ `RAGService.chunk_document` ============ -/

/-- `content.split("\n\n")`: split on the two-newline separator, keeping
empty parts (the empty string yields one empty part). -/
def splitNl2 : Txt → List Txt
  | [] => [[]]
  | '\n' :: '\n' :: rest => [] :: splitNl2 rest
  | c :: rest =>
      match splitNl2 rest with
      | [] => [[c]]
      | p :: ps => (c :: p) :: ps

/-- `s.strip()`: drop leading, then trailing, whitespace. -/
def pyStrip (s : Txt) : Txt :=
  ((s.dropWhile Char.isWhitespace).reverse.dropWhile Char.isWhitespace).reverse

/-- `current[-overlap:]`: Python `-0` is `0`, so a zero `overlap` slices
the whole string; otherwise the last `overlap` characters. -/
def pyTail (s : Txt) (overlap : ℕ) : Txt :=
  if overlap = 0 then s else s.drop (s.length - overlap)

/-- `range(start, stop, step)` for a positive step. -/
def rangeStep (start stop step : ℕ) : List ℕ :=
  if h : start < stop ∧ 0 < step then start :: rangeStep (start + step) stop step
  else []
termination_by stop - start
decreasing_by exact Nat.sub_lt_sub_left h.1 (Nat.lt_add_of_pos_right h.2)

/-- `range(0, stop, step)` with an arbitrary integer step: a zero step
raises `ValueError`; a negative step yields the empty range. -/
def pyRange (stop : ℕ) (step : ℤ) : Option (List ℕ) :=
  if step = 0 then none
  else if step < 0 then some []
  else some (rangeStep 0 stop step.toNat)

/-- The force-split loop
`for i in range(0, len(para), chunk_size - overlap): para[i : i + chunk_size]`. -/
def forceSplitSlices (para : Txt) (size : ℕ) (step : ℤ) : Option (List Txt) :=
  (pyRange para.length step).map (fun idxs =>
    idxs.map (fun i => (para.drop i).take size))

/-- The paragraph loop of `chunk_document` over `(chunks, current)`: an
empty stripped paragraph is skipped; an over-long paragraph flushes the
buffer and is force-split (`none` when `range` raises); a short
paragraph that would overflow the buffer flushes it and seeds the next
buffer with the trailing `overlap` slice plus a space, and is then
appended to the buffer with a blank-line separator. -/
def chunkLoop (size overlap : ℕ) :
    List Txt → List Txt → Txt → Option (List Txt × Txt)
  | [], chunks, current => some (chunks, current)
  | p :: ps, chunks, current =>
      let para := pyStrip p
      if para = [] then chunkLoop size overlap ps chunks current
      else if size < para.length then
        let flushed := if pyStrip current ≠ [] then
            (chunks ++ [pyStrip current], ([] : Txt))
          else (chunks, current)
        match forceSplitSlices para size ((size : ℤ) - overlap) with
        | none => none
        | some slices => chunkLoop size overlap ps (flushed.1 ++ slices) flushed.2
      else
        let adjusted := if size < current.length + para.length then
            if pyStrip current ≠ [] then
              (chunks ++ [pyStrip current],
               if overlap < current.length then pyTail current overlap ++ [' ']
               else ([] : Txt))
            else (chunks, current)
          else (chunks, current)
        chunkLoop size overlap ps adjusted.1 (adjusted.2 ++ para ++ ['\n', '\n'])

/-- `RAGService.chunk_document`: split into paragraphs, run the buffer
loop, flush the final buffer, and force-split the entire content as a
fallback when no chunk was produced.  `none` models the `ValueError`
raised by `range(0, n, 0)` when `overlap = chunk_size`. -/
def chunk_document (content : Txt) (chunk_size overlap : ℕ) : Option (List Txt) :=
  match chunkLoop chunk_size overlap (splitNl2 content) [] [] with
  | none => none
  | some r =>
      let chunks2 := if pyStrip r.2 ≠ [] then r.1 ++ [pyStrip r.2] else r.1
      if chunks2 = [] ∧ content ≠ [] then
        forceSplitSlices content chunk_size ((chunk_size : ℤ) - overlap)
      else some chunks2

/-- Concatenation minus the overlaps: the first chunk whole, every later
chunk with its first `overlap` characters removed. -/
def joinOverlap (overlap : ℕ) : List Txt → Txt
  | [] => []
  | s :: ss => s ++ (ss.map (List.drop overlap)).flatten

/-- `p` occurs contiguously inside `s`. -/
def containsSeg (p s : Txt) : Prop := ∃ u v, s = u ++ p ++ v

/-- C9: the claim says the force-split stride is clamped to stay
positive, but the code uses a bare `chunk_size - overlap`: with
`overlap = chunk_size` the `range` step is zero and Python raises
`ValueError` (the model returns `none` instead of slices). -/
theorem chunk_document_zero_step_raises :
    chunk_document "aaa".data 2 2 = none := by
  rfl

/-- C2 counterexample: the claim quantifies over every overlap, but with
`overlap > chunk_size` the force-split range step is negative, the range
is empty, and the whole content is dropped: the returned chunk list is
empty for a non-empty input. -/
theorem chunk_document_drops_content_cex :
    chunk_document "aaa".data 2 3 = some [] ∧ "aaa".data ≠ [] := by
  exact ⟨rfl, by decide⟩

/-- The slice list the force-split loop produces for a positive stride. -/
def slicesOf (l : Txt) (size stepN : ℕ) : List Txt :=
  (rangeStep 0 l.length stepN).map (fun i => (l.drop i).take size)

theorem rangeStep_add (k : ℕ) :
    ∀ (n a b step : ℕ), b - a ≤ n →
      rangeStep (a + k) (b + k) step = (rangeStep a b step).map (· + k) := by
  intro n
  induction n with
  | zero =>
      intro a b step h
      rw [rangeStep, dif_neg (by omega), rangeStep, dif_neg (by omega)]
      rfl
  | succ n ih =>
      intro a b step h
      by_cases hc : a < b ∧ 0 < step
      · rw [show rangeStep a b step = a :: rangeStep (a + step) b step from by
          rw [rangeStep, dif_pos hc]]
        rw [show rangeStep (a + k) (b + k) step
            = (a + k) :: rangeStep (a + k + step) (b + k) step from by
          rw [rangeStep, dif_pos (by omega)]]
        simp only [List.map_cons]
        rw [show a + k + step = a + step + k from by omega,
          ih (a + step) b step (by omega)]
      · rw [rangeStep, dif_neg (by omega), rangeStep, dif_neg hc]
        rfl

theorem forceSplitSlices_pos (para : Txt) (size overlap : ℕ) (hov : overlap < size) :
    forceSplitSlices para size ((size : ℤ) - overlap) =
      some (slicesOf para size (size - overlap)) := by
  rw [forceSplitSlices, pyRange, if_neg (by omega), if_neg (by omega)]
  rw [show ((size : ℤ) - (overlap : ℤ)).toNat = size - overlap from by omega]
  rfl

theorem slicesOf_cons (l : Txt) (size stepN : ℕ) (hstep : 0 < stepN) (hl : l ≠ []) :
    slicesOf l size stepN = l.take size :: slicesOf (l.drop stepN) size stepN := by
  rw [slicesOf, rangeStep, dif_pos ⟨List.length_pos.mpr hl, hstep⟩, List.map_cons,
    List.drop_zero]
  congr 1
  rw [slicesOf, List.length_drop]
  by_cases hle : stepN ≤ l.length
  · have h1 : rangeStep (0 + stepN) l.length stepN =
        (rangeStep 0 (l.length - stepN) stepN).map (· + stepN) := by
      have h2 := rangeStep_add stepN (l.length - stepN) 0 (l.length - stepN) stepN
        (by omega)
      rw [show (l.length - stepN) + stepN = l.length from by omega] at h2
      exact h2
    rw [h1, List.map_map]
    apply List.map_congr_left
    intro i hi
    simp only [Function.comp_apply]
    congr 1
    rw [List.drop_drop]
    congr 1
    omega
  · rw [rangeStep, dif_neg (by omega)]
    rw [show l.length - stepN = 0 from by omega, rangeStep, dif_neg (by omega)]
    rfl

theorem slicesOf_flatten_drop (size overlap stepN : ℕ) (hstep : 0 < stepN)
    (hsize : size = stepN + overlap) :
    ∀ (n : ℕ) (l : Txt), l.length ≤ n →
      ((slicesOf l size stepN).map (List.drop overlap)).flatten = l.drop overlap := by
  intro n
  induction n with
  | zero =>
      intro l h
      have hl : l = [] := List.eq_nil_of_length_eq_zero (Nat.le_zero.mp h)
      subst hl
      rw [slicesOf]
      rw [show ([] : Txt).length = 0 from rfl, rangeStep, dif_neg (by omega)]
      simp
  | succ n ih =>
      intro l hl
      by_cases hnil : l = []
      · subst hnil
        rw [slicesOf]
        rw [show ([] : Txt).length = 0 from rfl, rangeStep, dif_neg (by omega)]
        simp
      · rw [slicesOf_cons l size stepN hstep hnil, List.map_cons, List.flatten_cons]
        rw [ih (l.drop stepN) (by
          rw [List.length_drop]
          have hp := List.length_pos.mpr hnil
          omega)]
        rw [List.drop_take, List.drop_drop]
        rw [show size - overlap = stepN from by omega,
          show stepN + overlap = size from by omega]
        rw [show l.drop size = (l.drop overlap).drop stepN from by
          rw [List.drop_drop]; congr 1; omega]
        exact List.take_append_drop stepN (l.drop overlap)

theorem joinOverlap_slicesOf (size overlap stepN : ℕ) (hstep : 0 < stepN)
    (hsize : size = stepN + overlap) (l : Txt) :
    joinOverlap overlap (slicesOf l size stepN) = l := by
  by_cases hnil : l = []
  · subst hnil
    rw [slicesOf]
    rw [show ([] : Txt).length = 0 from rfl, rangeStep, dif_neg (by omega)]
    simp [joinOverlap]
  · rw [slicesOf_cons l size stepN hstep hnil, joinOverlap]
    rw [slicesOf_flatten_drop size overlap stepN hstep hsize (l.drop stepN).length
      (l.drop stepN) le_rfl]
    rw [List.drop_drop, show stepN + overlap = size from by omega]
    exact List.take_append_drop size l

theorem slicesOf_length_le (l : Txt) (size stepN : ℕ) :
    ∀ sl ∈ slicesOf l size stepN, sl.length ≤ size := by
  intro sl hsl
  rw [slicesOf, List.mem_map] at hsl
  rcases hsl with ⟨i, _, rfl⟩
  exact List.length_take_le _ _


theorem containsSeg_append_right (p s t : Txt) (h : containsSeg p s) :
    containsSeg p (s ++ t) := by
  rcases h with ⟨u, v, rfl⟩
  exact ⟨u, v ++ t, by simp⟩

theorem containsSeg_reverse (p s : Txt) (h : containsSeg p s) :
    containsSeg p.reverse s.reverse := by
  rcases h with ⟨u, v, rfl⟩
  exact ⟨v.reverse, u.reverse, by simp⟩

theorem containsSeg_mem (p s : Txt) (c : Char) (hc : c ∈ p) (h : containsSeg p s) :
    c ∈ s := by
  rcases h with ⟨u, v, rfl⟩
  simp [hc]

theorem containsSeg_dropWhile (f : Char → Bool) (p s : Txt) (c : Char)
    (hp : p.head? = some c) (hc : f c = false) (h : containsSeg p s) :
    containsSeg p (s.dropWhile f) := by
  rcases h with ⟨u, v, rfl⟩
  induction u with
  | nil =>
      cases p with
      | nil => simp at hp
      | cons a p2 =>
          have ha : a = c := by simpa using hp
          subst ha
          rw [List.nil_append, List.cons_append, List.dropWhile_cons, hc]
          exact ⟨[], v, by simp⟩
  | cons a u ih =>
      simp only [List.cons_append]
      rw [List.dropWhile_cons]
      by_cases hfa : f a = true
      · rw [if_pos hfa]
        exact ih
      · rw [if_neg hfa]
        exact ⟨a :: u, v, by simp⟩

theorem containsSeg_pyStrip (p s : Txt) (c1 c2 : Char)
    (hh : p.head? = some c1) (hc1 : c1.isWhitespace = false)
    (hl : p.getLast? = some c2) (hc2 : c2.isWhitespace = false)
    (h : containsSeg p s) : containsSeg p (pyStrip s) := by
  have h1 : containsSeg p (s.dropWhile Char.isWhitespace) :=
    containsSeg_dropWhile _ p s c1 hh hc1 h
  have h2 : containsSeg p.reverse (s.dropWhile Char.isWhitespace).reverse :=
    containsSeg_reverse _ _ h1
  have h3 : containsSeg p.reverse
      ((s.dropWhile Char.isWhitespace).reverse.dropWhile Char.isWhitespace) := by
    refine containsSeg_dropWhile _ _ _ c2 ?_ hc2 h2
    rw [List.head?_reverse]
    exact hl
  have h4 := containsSeg_reverse _ _ h3
  rw [List.reverse_reverse] at h4
  exact h4

theorem head_dropWhile_not (f : Char → Bool) (l : Txt) :
    ∀ (c : Char) (cs : Txt), l.dropWhile f = c :: cs → f c = false := by
  induction l with
  | nil => intro c cs h; simp at h
  | cons a l ih =>
      intro c cs h
      rw [List.dropWhile_cons] at h
      by_cases hfa : f a = true
      · rw [if_pos hfa] at h
        exact ih c cs h
      · rw [if_neg hfa] at h
        have ha : a = c := by
          have := congrArg List.head? h
          simpa using this
        subst ha
        simpa using hfa

theorem pyStrip_decomp (s : Txt) :
    ∃ t, s.dropWhile Char.isWhitespace = pyStrip s ++ t := by
  refine ⟨((s.dropWhile Char.isWhitespace).reverse.takeWhile Char.isWhitespace).reverse,
    ?_⟩
  rw [pyStrip, ← List.reverse_append, List.takeWhile_append_dropWhile,
    List.reverse_reverse]

theorem pyStrip_head (s : Txt) (c : Char) (cs : Txt) (h : pyStrip s = c :: cs) :
    c.isWhitespace = false := by
  rcases pyStrip_decomp s with ⟨t, ht⟩
  rw [h, List.cons_append] at ht
  exact head_dropWhile_not _ s c _ ht

theorem pyStrip_last (s : Txt) (c : Char) (h : (pyStrip s).getLast? = some c) :
    c.isWhitespace = false := by
  rw [pyStrip, List.getLast?_reverse] at h
  cases hY : (s.dropWhile Char.isWhitespace).reverse.dropWhile Char.isWhitespace with
  | nil => rw [hY] at h; simp at h
  | cons a ys =>
      rw [hY] at h
      have ha : a = c := by simpa using h
      subst ha
      exact head_dropWhile_not _ _ a _ hY

theorem pyStrip_eq_nil_all_ws (s : Txt) (h : pyStrip s = []) :
    ∀ c ∈ s, c.isWhitespace = true := by
  intro c hc
  rw [pyStrip, List.reverse_eq_nil_iff, List.dropWhile_eq_nil_iff] at h
  have hX : ∀ x ∈ s.dropWhile Char.isWhitespace, x.isWhitespace = true := by
    intro x hx
    exact h x (List.mem_reverse.mpr hx)
  have hs : s.takeWhile Char.isWhitespace ++ s.dropWhile Char.isWhitespace = s :=
    List.takeWhile_append_dropWhile Char.isWhitespace s
  rcases List.mem_append.mp (by rw [hs]; exact hc) with hct | hcd
  · exact List.mem_takeWhile_imp hct
  · exact hX c hcd

theorem pyStrip_ne_nil_of_containsSeg (p s : Txt) (c : Char) (cs : Txt)
    (hp : p = c :: cs) (hcw : c.isWhitespace = false) (h : containsSeg p s) :
    pyStrip s ≠ [] := by
  intro h0
  have hcs : c ∈ s := containsSeg_mem p s c (by simp [hp]) h
  have hws := pyStrip_eq_nil_all_ws s h0 c hcs
  rw [hcw] at hws
  exact Bool.false_ne_true hws

theorem chunkLoop_total (size overlap : ℕ) (hov : overlap < size) :
    ∀ (ps chunks : List Txt) (current : Txt),
      ∃ r, chunkLoop size overlap ps chunks current = some r := by
  intro ps
  induction ps with
  | nil => exact fun chunks current => ⟨(chunks, current), rfl⟩
  | cons p ps ih =>
      intro chunks current
      simp only [chunkLoop]
      by_cases h1 : pyStrip p = []
      · rw [if_pos h1]
        exact ih chunks current
      · rw [if_neg h1]
        by_cases h2 : size < (pyStrip p).length
        · rw [if_pos h2, forceSplitSlices_pos _ _ _ hov]
          exact ih _ _
        · rw [if_neg h2]
          exact ih _ _

theorem chunkLoop_mono (size overlap : ℕ) :
    ∀ (ps chunks : List Txt) (current : Txt) (r : List Txt × Txt),
      chunkLoop size overlap ps chunks current = some r →
      ∀ ch ∈ chunks, ch ∈ r.1 := by
  intro ps
  induction ps with
  | nil =>
      intro chunks current r h ch hch
      simp only [chunkLoop, Option.some.injEq] at h
      rw [← h]
      exact hch
  | cons p ps ih =>
      intro chunks current r h ch hch
      simp only [chunkLoop] at h
      by_cases h1 : pyStrip p = []
      · rw [if_pos h1] at h
        exact ih chunks current r h ch hch
      · rw [if_neg h1] at h
        by_cases h2 : size < (pyStrip p).length
        · rw [if_pos h2] at h
          cases hfs : forceSplitSlices (pyStrip p) size ((size : ℤ) - overlap) with
          | none => rw [hfs] at h; exact absurd h (by simp)
          | some slices =>
              rw [hfs] at h
              refine ih _ _ r h ch (List.mem_append.mpr (Or.inl ?_))
              split_ifs <;> simp [hch]
        · rw [if_neg h2] at h
          refine ih _ _ r h ch ?_
          split_ifs <;> simp [hch]

theorem chunkLoop_preserve (size overlap : ℕ) (q : Txt) (c1 c2 : Char) (cs : Txt)
    (hq : q = c1 :: cs) (hc1 : c1.isWhitespace = false)
    (hlast : q.getLast? = some c2) (hc2 : c2.isWhitespace = false) :
    ∀ (ps chunks : List Txt) (current : Txt) (r : List Txt × Txt),
      chunkLoop size overlap ps chunks current = some r →
      ((∃ ch ∈ chunks, containsSeg q ch) ∨ containsSeg q current) →
      (∃ ch ∈ r.1, containsSeg q ch) ∨ containsSeg q r.2 := by
  intro ps
  induction ps with
  | nil =>
      intro chunks current r h hyp
      simp only [chunkLoop, Option.some.injEq] at h
      rw [← h]
      exact hyp
  | cons p ps ih =>
      intro chunks current r h hyp
      simp only [chunkLoop] at h
      by_cases h1 : pyStrip p = []
      · rw [if_pos h1] at h
        exact ih chunks current r h hyp
      · rw [if_neg h1] at h
        by_cases h2 : size < (pyStrip p).length
        · rw [if_pos h2] at h
          cases hfs : forceSplitSlices (pyStrip p) size ((size : ℤ) - overlap) with
          | none => rw [hfs] at h; exact absurd h (by simp)
          | some slices =>
              rw [hfs] at h
              refine ih _ _ r h ?_
              rcases hyp with ⟨ch, hch, hseg⟩ | hcur
              · exact Or.inl ⟨ch,
                  List.mem_append.mpr (Or.inl (by split_ifs <;> simp [hch])), hseg⟩
              · by_cases h3 : pyStrip current = []
                · right
                  rw [if_neg (by simp [h3])]
                  exact hcur
                · left
                  refine ⟨pyStrip current, ?_, containsSeg_pyStrip q current c1 c2
                    (by rw [hq]; rfl) hc1 hlast hc2 hcur⟩
                  rw [if_pos h3]
                  simp
        · rw [if_neg h2] at h
          refine ih _ _ r h ?_
          rcases hyp with ⟨ch, hch, hseg⟩ | hcur
          · exact Or.inl ⟨ch, by split_ifs <;> simp [hch], hseg⟩
          · by_cases hflush : size < current.length + (pyStrip p).length
            · by_cases h3 : pyStrip current = []
              · right
                rw [if_pos hflush, if_neg (by simp [h3])]
                exact containsSeg_append_right _ _ _
                  (containsSeg_append_right _ _ _ hcur)
              · left
                refine ⟨pyStrip current, ?_, containsSeg_pyStrip q current c1 c2
                  (by rw [hq]; rfl) hc1 hlast hc2 hcur⟩
                rw [if_pos hflush, if_pos h3]
                simp
            · right
              rw [if_neg hflush]
              exact containsSeg_append_right _ _ _
                (containsSeg_append_right _ _ _ hcur)

theorem chunkLoop_covers (size overlap : ℕ) (hov : overlap < size) :
    ∀ (ps chunks : List Txt) (current : Txt) (r : List Txt × Txt),
      chunkLoop size overlap ps chunks current = some r →
      ∀ p ∈ ps, pyStrip p ≠ [] →
        ((pyStrip p).length ≤ size →
          (∃ ch ∈ r.1, containsSeg (pyStrip p) ch) ∨ containsSeg (pyStrip p) r.2) ∧
        (size < (pyStrip p).length →
          ∀ sl ∈ slicesOf (pyStrip p) size (size - overlap), sl ∈ r.1) := by
  intro ps
  induction ps with
  | nil =>
      intro chunks current r h p hp
      exact absurd hp (List.not_mem_nil p)
  | cons p0 ps ih =>
      intro chunks current r h p hp hpq
      simp only [chunkLoop] at h
      by_cases h1 : pyStrip p0 = []
      · rw [if_pos h1] at h
        rcases List.mem_cons.mp hp with rfl | hp2
        · exact absurd h1 hpq
        · exact ih _ _ r h p hp2 hpq
      · rw [if_neg h1] at h
        by_cases h2 : size < (pyStrip p0).length
        · rw [if_pos h2, forceSplitSlices_pos _ _ _ hov] at h
          rcases List.mem_cons.mp hp with rfl | hp2
          · constructor
            · intro hle
              exact absurd hle (by omega)
            · intro _ sl hsl
              exact chunkLoop_mono size overlap ps _ _ r h sl
                (List.mem_append.mpr (Or.inr hsl))
          · exact ih _ _ r h p hp2 hpq
        · rw [if_neg h2] at h
          rcases List.mem_cons.mp hp with rfl | hp2
          · constructor
            · intro _
              obtain ⟨c1, cs, hq⟩ : ∃ c1 cs, pyStrip p = c1 :: cs := by
                cases hq0 : pyStrip p with
                | nil => exact absurd hq0 hpq
                | cons a as => exact ⟨a, as, rfl⟩
              have hc1 := pyStrip_head p c1 cs hq
              obtain ⟨c2, hlast⟩ : ∃ c2, (pyStrip p).getLast? = some c2 :=
                ⟨(pyStrip p).getLast hpq, List.getLast?_eq_getLast _ hpq⟩
              have hc2 := pyStrip_last p c2 hlast
              exact chunkLoop_preserve size overlap (pyStrip p) c1 c2 cs hq hc1
                hlast hc2 ps _ _ r h (Or.inr ⟨_, ['\n', '\n'], rfl⟩)
            · intro hlt
              exact absurd hlt (by omega)
          · exact ih _ _ r h p hp2 hpq

/-- C2 (amended): for `overlap < chunk_size`, `chunk_document` covers the
input paragraph-wise: every stripped non-empty paragraph either appears
contiguously inside some returned chunk (when it fits `chunk_size`) or
is force-split into slices that all appear among the chunks, each of
length at most `chunk_size`, whose concatenation minus the overlaps
reconstructs the paragraph exactly; and every force-split slice list
(also the whole-content fallback split) reconstructs its input minus
overlaps with all slices bounded by `chunk_size`.  (For
`overlap ≥ chunk_size` the claim fails: the unclamped stride drops the
content or raises, see the counterexample; and the buffer path
normalizes whitespace, so coverage is per stripped paragraph.) -/
theorem chunk_document_coverage (content : Txt) (size overlap : ℕ)
    (hov : overlap < size) :
    (∃ chunks, chunk_document content size overlap = some chunks ∧
      ∀ p ∈ splitNl2 content, pyStrip p ≠ [] →
        ((pyStrip p).length ≤ size → ∃ ch ∈ chunks, containsSeg (pyStrip p) ch) ∧
        (size < (pyStrip p).length →
          ∃ slices, forceSplitSlices (pyStrip p) size ((size : ℤ) - overlap) =
              some slices ∧
            (∀ sl ∈ slices, sl ∈ chunks ∧ sl.length ≤ size) ∧
            joinOverlap overlap slices = pyStrip p)) ∧
    (∀ (para : Txt) (slices : List Txt),
      forceSplitSlices para size ((size : ℤ) - overlap) = some slices →
      joinOverlap overlap slices = para ∧ ∀ sl ∈ slices, sl.length ≤ size) := by
  constructor
  · obtain ⟨r, hr⟩ := chunkLoop_total size overlap hov (splitNl2 content) [] []
    have hcd : chunk_document content size overlap =
        (if (if pyStrip r.2 ≠ [] then r.1 ++ [pyStrip r.2] else r.1) = [] ∧
            content ≠ [] then
          forceSplitSlices content size ((size : ℤ) - overlap)
        else some (if pyStrip r.2 ≠ [] then r.1 ++ [pyStrip r.2] else r.1)) := by
      rw [chunk_document, hr]
    by_cases hfb : (if pyStrip r.2 ≠ [] then r.1 ++ [pyStrip r.2] else r.1) = [] ∧
        content ≠ []
    · refine ⟨slicesOf content size (size - overlap), ?_, ?_⟩
      · rw [hcd, if_pos hfb, forceSplitSlices_pos _ _ _ hov]
      · intro p hp hpq
        exfalso
        have hr1 : r.1 = [] ∧ pyStrip r.2 = [] := by
          rcases hfb with ⟨hnil, _⟩
          by_cases h3 : pyStrip r.2 = []
          · rw [if_neg (by simp [h3])] at hnil
            exact ⟨hnil, h3⟩
          · rw [if_pos h3] at hnil
            exact absurd hnil (List.append_ne_nil_of_right_ne_nil _ (by simp))
        obtain ⟨c1, cs, hq⟩ : ∃ c1 cs, pyStrip p = c1 :: cs := by
          cases hq0 : pyStrip p with
          | nil => exact absurd hq0 hpq
          | cons a as => exact ⟨a, as, rfl⟩
        have hc1 := pyStrip_head p c1 cs hq
        have hcov := chunkLoop_covers size overlap hov (splitNl2 content) [] [] r
          hr p hp hpq
        by_cases h2 : size < (pyStrip p).length
        · have hone : (pyStrip p).take size ∈
              slicesOf (pyStrip p) size (size - overlap) := by
            rw [slicesOf_cons _ _ _ (by omega) (by rw [hq]; simp)]
            simp
          have hin := hcov.2 h2 _ hone
          rw [hr1.1] at hin
          exact absurd hin (List.not_mem_nil _)
        · rcases hcov.1 (by omega) with ⟨ch, hch, _⟩ | hcur
          · rw [hr1.1] at hch
            exact absurd hch (List.not_mem_nil _)
          · exact pyStrip_ne_nil_of_containsSeg _ _ c1 cs hq hc1 hcur hr1.2
    · refine ⟨(if pyStrip r.2 ≠ [] then r.1 ++ [pyStrip r.2] else r.1), ?_, ?_⟩
      · rw [hcd, if_neg hfb]
      · intro p hp hpq
        obtain ⟨c1, cs, hq⟩ : ∃ c1 cs, pyStrip p = c1 :: cs := by
          cases hq0 : pyStrip p with
          | nil => exact absurd hq0 hpq
          | cons a as => exact ⟨a, as, rfl⟩
        have hc1 := pyStrip_head p c1 cs hq
        obtain ⟨c2, hlast⟩ : ∃ c2, (pyStrip p).getLast? = some c2 :=
          ⟨(pyStrip p).getLast hpq, List.getLast?_eq_getLast _ hpq⟩
        have hc2 := pyStrip_last p c2 hlast
        have hcov := chunkLoop_covers size overlap hov (splitNl2 content) [] [] r
          hr p hp hpq
        constructor
        · intro hle
          rcases hcov.1 hle with ⟨ch, hch, hseg⟩ | hcur
          · exact ⟨ch, by split_ifs <;> simp [hch], hseg⟩
          · have h3 : pyStrip r.2 ≠ [] :=
              pyStrip_ne_nil_of_containsSeg _ _ c1 cs hq hc1 hcur
            refine ⟨pyStrip r.2, ?_, containsSeg_pyStrip _ _ c1 c2
              (by rw [hq]; rfl) hc1 hlast hc2 hcur⟩
            rw [if_pos h3]
            simp
        · intro h2
          refine ⟨slicesOf (pyStrip p) size (size - overlap),
            forceSplitSlices_pos _ _ _ hov, ?_,
            joinOverlap_slicesOf size overlap (size - overlap) (by omega)
              (by omega) _⟩
          intro sl hsl
          refine ⟨?_, slicesOf_length_le _ _ _ sl hsl⟩
          have hin := hcov.2 h2 sl hsl
          split_ifs <;> simp [hin]
  · intro para slices h
    rw [forceSplitSlices_pos _ _ _ hov] at h
    have hs := Option.some.inj h
    rw [← hs]
    exact ⟨joinOverlap_slicesOf size overlap (size - overlap) (by omega)
      (by omega) para, slicesOf_length_le _ _ _⟩

/-- C2 witness: the amended coverage theorem applied at `overlap = 1`,
`chunk_size = 2`, on a single over-long paragraph. -/
theorem chunk_document_coverage_witness :
    1 < 2 ∧
    (∃ chunks, chunk_document "abcd".data 2 1 = some chunks ∧
      ∀ p ∈ splitNl2 "abcd".data, pyStrip p ≠ [] →
        ((pyStrip p).length ≤ 2 → ∃ ch ∈ chunks, containsSeg (pyStrip p) ch) ∧
        (2 < (pyStrip p).length →
          ∃ slices, forceSplitSlices (pyStrip p) 2 ((2 : ℤ) - 1) = some slices ∧
            (∀ sl ∈ slices, sl ∈ chunks ∧ sl.length ≤ 2) ∧
            joinOverlap 1 slices = pyStrip p)) ∧
    (∀ (para : Txt) (slices : List Txt),
      forceSplitSlices para 2 ((2 : ℤ) - 1) = some slices →
      joinOverlap 1 slices = para ∧ ∀ sl ∈ slices, sl.length ≤ 2) :=
  ⟨by norm_num, (chunk_document_coverage "abcd".data 2 1 (by norm_num)).1,
    (chunk_document_coverage "abcd".data 2 1 (by norm_num)).2⟩

/- ============ `embedding_to_bytes` / `bytes_to_embedding` ============ -/

/-- `struct.pack(f"{len(v)}f", *v)`: each float packs to exactly four
bytes.  The float32 encoding itself belongs to the external `struct`
library and is modelled by `enc`, whose result type fixes the
four-bytes-per-element layout. -/
def embedding_to_bytes (enc : ℚ → ℕ × ℕ × ℕ × ℕ) (v : List ℚ) : List ℕ :=
  v.flatMap (fun x => [(enc x).1, (enc x).2.1, (enc x).2.2.1, (enc x).2.2.2])

/-- Unpacking consecutive four-byte groups, one float each. -/
def decodeGroups (dec : ℕ → ℕ → ℕ → ℕ → ℚ) : List ℕ → List ℚ
  | b0 :: b1 :: b2 :: b3 :: rest => dec b0 b1 b2 b3 :: decodeGroups dec rest
  | _ => []

/-- `bytes_to_embedding`: `count = len(data) // 4` floats are unpacked;
`struct.unpack` raises (`none`) unless the buffer holds exactly
`4 * count` bytes, i.e. a multiple of four. -/
def bytes_to_embedding (dec : ℕ → ℕ → ℕ → ℕ → ℚ) (data : List ℕ) :
    Option (List ℚ) :=
  if data.length % 4 = 0 then some (decodeGroups dec data) else none

/-- C10: for every vector and every element codec, decoding the packed
bytes succeeds and yields one float per element of the input — the
binary encoding is exactly four bytes per element, so an embedding's
dimension survives the persistence round trip. -/
theorem embedding_bytes_roundtrip (enc : ℚ → ℕ × ℕ × ℕ × ℕ)
    (dec : ℕ → ℕ → ℕ → ℕ → ℚ) (v : List ℚ) :
    ∃ w, bytes_to_embedding dec (embedding_to_bytes enc v) = some w ∧
      w.length = v.length := by
  have hcons : ∀ (x : ℚ) (u : List ℚ), embedding_to_bytes enc (x :: u) =
      (enc x).1 :: (enc x).2.1 :: (enc x).2.2.1 :: (enc x).2.2.2 ::
        embedding_to_bytes enc u := by
    intro x u
    rw [embedding_to_bytes, List.flatMap_cons]
    rfl
  have hlen : ∀ u : List ℚ, (embedding_to_bytes enc u).length = 4 * u.length := by
    intro u
    induction u with
    | nil => rfl
    | cons x u ih =>
        rw [hcons, List.length_cons, List.length_cons, List.length_cons,
          List.length_cons, ih, List.length_cons]
        ring
  have hdecl : ∀ u : List ℚ,
      (decodeGroups dec (embedding_to_bytes enc u)).length = u.length := by
    intro u
    induction u with
    | nil => rfl
    | cons x u ih =>
        rw [hcons, decodeGroups, List.length_cons, ih, List.length_cons]
  refine ⟨decodeGroups dec (embedding_to_bytes enc v), ?_, hdecl v⟩
  rw [bytes_to_embedding, if_pos (by rw [hlen]; omega)]
